import Mathlib

/-!
Verification of the piano-note detection pipeline in `main.go`.

The Go program processes fixed-size audio blocks: it builds a 61-entry
equal-tempered note table (`generatePianoNotes`), transforms each block with
an FFT, computes the magnitude spectrum of the lower half, scans a bounded
range of bins for the dominant peak, applies a one-shot octave-down harmonic
correction, and reports the nearest note (`findClosestNote`) when the peak
magnitude exceeds 0.05.

Embedding choices:
* `float64` values are embedded as real numbers (`ℝ`); the spec states the
  arithmetic is well-defined for any finite float input.
* The library FFT (`fft.FFT` from go-dsp) is embedded as the standard
  unnormalized forward DFT `X[k] = Σ_n x[n]·e^(-2πikn/N)`, which is the
  mathematical function that library computes.
* A Go runtime panic (index out of range when writing the sample buffer)
  is modeled by the `ProcResult.panic` constructor; emitting a detection
  line corresponds to `ProcResult.detected`, and silence to `ProcResult.idle`.
-/

open Real

/-- `Note` mirrors the Go struct `Note { Name string; Frequency float64 }`. -/
structure Note where
  name : String
  frequency : ℝ

instance : Inhabited Note := ⟨⟨"", 0⟩⟩

/-- The fixed chromatic name cycle `noteNames` from `generatePianoNotes`
(`\x23` is the sharp sign `#`). -/
def noteNames : List String :=
  ["C", "C\x23", "D", "D\x23", "E", "F", "F\x23", "G", "G\x23", "A", "A\x23", "B"]

/-- `generatePianoNotes` from main.go: 61 notes, `freq = startFreq * 2^(i/12)`
with `startFreq = 440 * 2^(-33/12)`, named by chromatic class and octave. -/
noncomputable def generatePianoNotes : List Note :=
  (List.range 61).map fun i =>
    { name := noteNames.getD (i % 12) "" ++ toString (2 + i / 12)
      frequency := 440 * (2 : ℝ) ^ ((-33 : ℝ) / 12) * (2 : ℝ) ^ ((i : ℝ) / 12) }

/-- The package-level `pianoNotes = generatePianoNotes()`. -/
noncomputable def pianoNotes : List Note := generatePianoNotes

/-- `sampleRate` constant (44100). -/
def sampleRate : ℕ := 44100

/-- `framesPerBuffer` constant (2048). -/
def framesPerBuffer : ℕ := 2048

/-- `freqResolution := float64(sampleRate) / float64(framesPerBuffer)`. -/
noncomputable def freqResolution : ℝ := (sampleRate : ℝ) / (framesPerBuffer : ℝ)

/-- `highFreqLimit := int(2200.0 / freqResolution)`; Go `int()` truncates,
which on this positive value is the floor. -/
noncomputable def highFreqLimit : ℕ := (⌊(2200 : ℝ) / freqResolution⌋).toNat

/-- One step of the loop body of `findClosestNote`: the accumulator holds
the current `(closest, minDiff)` pair. -/
noncomputable def closestStep (freq : ℝ) (acc : Note × ℝ) (note : Note) : Note × ℝ :=
  let diff := |freq - note.frequency|
  if diff < acc.2 then (note, diff) else acc

/-- `findClosestNote` from main.go: start from `pianoNotes[0]`, scan
`pianoNotes[1:]`, keep a strictly smaller difference. -/
noncomputable def findClosestNote (freq : ℝ) : Note :=
  ((pianoNotes.drop 1).foldl (closestStep freq)
    (pianoNotes.headI, |freq - pianoNotes.headI.frequency|)).1

/-- The sample-filling loop `for i, sample := range in { samples[i] = ... }`,
writing into a buffer created by `make([]complex128, framesPerBuffer)`.
Writing past the end of the buffer is a Go runtime panic, modeled by `none`. -/
def writeSeq : List ℂ → List ℂ → ℕ → Option (List ℂ)
  | buf, [], _ => some buf
  | buf, x :: rest, i =>
    if i < buf.length then writeSeq (buf.set i x) rest (i + 1) else none

/-- Builds the `samples` array of `processAudio` from the input block;
`complex(float64(sample), 0)` is the real-to-complex embedding. -/
noncomputable def samplesOf (input : List ℝ) : Option (List ℂ) :=
  writeSeq (List.replicate framesPerBuffer 0) (input.map Complex.ofReal) 0

/-- The forward DFT computed by `fft.FFT`:
`X[k] = Σ_{n<N} x[n] · e^(-2πikn/N)`. -/
noncomputable def dft (x : List ℂ) : List ℂ :=
  (List.range x.length).map fun k : ℕ =>
    ∑ n ∈ Finset.range x.length,
      x.getD n 0 * Complex.exp (-(2 * (Real.pi : ℂ) * Complex.I * (k : ℂ) * (n : ℂ)) / (x.length : ℂ))

/-- The magnitude loop of `processAudio`:
`magnitudes[i] = sqrt(re²+im²)` for `i < framesPerBuffer/2`. -/
noncomputable def magnitudesOf (s : List ℂ) : List ℝ :=
  (List.range (framesPerBuffer / 2)).map fun i =>
    Real.sqrt (((dft s).getD i 0).re * ((dft s).getD i 0).re +
      ((dft s).getD i 0).im * ((dft s).getD i 0).im)

/-- One step of the peak-scan loop of `processAudio`. -/
noncomputable def peakStep (mags : List ℝ) (acc : ℝ × ℕ) (i : ℕ) : ℝ × ℕ :=
  if mags.getD i 0 > acc.1 then (mags.getD i 0, i) else acc

/-- The peak scan of `processAudio`: `maxMag := 0.0; maxIdx := 0;`
`for i := 0; i < highFreqLimit && i < len(magnitudes); i++ { ... }`,
returning `(maxMag, maxIdx)`. -/
noncomputable def peakScan (mags : List ℝ) : ℝ × ℕ :=
  (List.range (min highFreqLimit mags.length)).foldl (peakStep mags) (0, 0)

/-- The per-block emission: note name plus its reference frequency, the raw
(pre-correction) frequency, and the raw magnitude, as printed by
`processAudio`. -/
structure DetectionResult where
  note : Note
  rawFrequency : ℝ
  magnitude : ℝ

/-- Outcome of one `processAudio` callback invocation. -/
inductive ProcResult where
  | panic : ProcResult
  | idle : ProcResult
  | detected : DetectionResult → ProcResult

/-- The tail of `processAudio` after the magnitude spectrum is available:
peak scan, threshold test, harmonic correction, emission. -/
noncomputable def detectFromMags (mags : List ℝ) : ProcResult :=
  let p := peakScan mags
  let maxMag := p.1
  let freq := (p.2 : ℝ) * freqResolution
  let closestNote := findClosestNote freq
  if maxMag > 0.05 then
    let finalNote :=
      if freq > 261.0 then
        let fundamental := freq / 2
        if |fundamental - (findClosestNote fundamental).frequency| < freqResolution then
          findClosestNote fundamental
        else closestNote
      else closestNote
    ProcResult.detected ⟨finalNote, freq, maxMag⟩
  else ProcResult.idle

/-- `processAudio` from main.go, one callback invocation on one block. -/
noncomputable def processAudio (input : List ℝ) : ProcResult :=
  match samplesOf input with
  | none => ProcResult.panic
  | some s => detectFromMags (magnitudesOf s)

/-! ### Basic table facts -/

theorem pianoNotes_length : pianoNotes.length = 61 := by
  simp [pianoNotes, generatePianoNotes]

theorem getD_map_range {α : Type} (f : ℕ → α) (n i : ℕ) (h : i < n) (d : α) :
    ((List.range n).map f).getD i d = f i := by
  rw [List.getD_eq_getElem?_getD]
  simp [List.getElem?_map, List.getElem?_range h]

theorem pianoNotes_getD (i : ℕ) (h : i < 61) :
    pianoNotes.getD i default =
      { name := noteNames.getD (i % 12) "" ++ toString (2 + i / 12)
        frequency := 440 * (2 : ℝ) ^ ((-33 : ℝ) / 12) * (2 : ℝ) ^ ((i : ℝ) / 12) } := by
  rw [pianoNotes, generatePianoNotes, getD_map_range _ _ _ h]

theorem pianoNotes_freq (i : ℕ) (h : i < 61) :
    (pianoNotes.getD i default).frequency = 440 * (2 : ℝ) ^ (((i : ℝ) - 33) / 12) := by
  rw [pianoNotes_getD i h]
  have : (2 : ℝ) ^ ((-33 : ℝ) / 12) * (2 : ℝ) ^ ((i : ℝ) / 12)
      = (2 : ℝ) ^ (((i : ℝ) - 33) / 12) := by
    rw [← Real.rpow_add (by norm_num : (0 : ℝ) < 2)]
    ring_nf
  simp only [mul_assoc, this]

/-! ### C8: bin resolution and search limit -/

/-- C8: with `sampleRate = 44100` and `frameSize = 2048`, `freqResolution`
is within 0.01 of 21.53 Hz, and `int(2200.0/freqResolution) = 102`. -/
theorem C8_bin_resolution :
    |freqResolution - 21.53| < 0.01 ∧ highFreqLimit = 102 := by
  constructor
  · rw [freqResolution, sampleRate, framesPerBuffer]
    rw [abs_lt]
    constructor <;> norm_num
  · have h : ⌊(2200 : ℝ) / freqResolution⌋ = 102 := by
      rw [freqResolution, sampleRate, framesPerBuffer]
      rw [Int.floor_eq_iff]
      constructor <;> norm_num
    rw [highFreqLimit, h]
    rfl

/-! ### C5: table size, frequencies, reference entry -/

/-- C5: `generatePianoNotes` returns exactly 61 notes with frequencies
`440·2^((i-33)/12)`; the entry at index 33 has frequency within 1e-6 of 440
and name "A4". -/
theorem C5_table_size_and_reference :
    generatePianoNotes.length = 61 ∧
    (∀ i, i < 61 →
      (generatePianoNotes.getD i default).frequency = 440 * (2 : ℝ) ^ (((i : ℝ) - 33) / 12)) ∧
    |(generatePianoNotes.getD 33 default).frequency - 440| < 1e-6 ∧
    (generatePianoNotes.getD 33 default).name = "A4" := by
  have hg : generatePianoNotes = pianoNotes := rfl
  have h33 : (pianoNotes.getD 33 default).frequency = 440 := by
    rw [pianoNotes_freq 33 (by norm_num)]
    norm_num
  refine ⟨?_, ?_, ?_, ?_⟩
  · rw [hg]; exact pianoNotes_length
  · intro i hi
    rw [hg]; exact pianoNotes_freq i hi
  · rw [hg, h33]
    norm_num
  · rw [hg, pianoNotes_getD 33 (by norm_num)]
    rfl

/-- Witness for C5 at the concrete index 0. -/
theorem C5_table_size_and_reference_witness :
    generatePianoNotes.length = 61 ∧
    (generatePianoNotes.getD 0 default).frequency = 440 * (2 : ℝ) ^ ((((0 : ℕ) : ℝ) - 33) / 12) :=
  ⟨C5_table_size_and_reference.1, C5_table_size_and_reference.2.1 0 (by norm_num)⟩

/-! ### C6: strict monotonicity and naming scheme -/

theorem pianoNotes_freq_pos (i : ℕ) (h : i < 61) :
    0 < (pianoNotes.getD i default).frequency := by
  rw [pianoNotes_freq i h]
  positivity

theorem pianoNotes_freq_lt_freq {j k : ℕ} (hjk : j < k) (hk : k < 61) :
    (pianoNotes.getD j default).frequency < (pianoNotes.getD k default).frequency := by
  rw [pianoNotes_freq j (lt_trans hjk hk), pianoNotes_freq k hk]
  have h2 : (1 : ℝ) < 2 := by norm_num
  rw [mul_lt_mul_left (by norm_num : (0 : ℝ) < 440)]
  rw [Real.rpow_lt_rpow_left_iff h2]
  have : (j : ℝ) < (k : ℝ) := by exact_mod_cast hjk
  linarith

/-- C6: the generated table is strictly increasing in frequency, and
`table[i].name` is the `(i % 12)`-th chromatic name (cycle starting at C)
concatenated with octave number `2 + i / 12`. -/
theorem C6_monotone_and_names :
    (∀ i, i + 1 < 61 →
      (generatePianoNotes.getD i default).frequency <
        (generatePianoNotes.getD (i + 1) default).frequency) ∧
    (∀ i, i < 61 →
      (generatePianoNotes.getD i default).name =
        noteNames.getD (i % 12) "" ++ toString (2 + i / 12)) := by
  have hg : generatePianoNotes = pianoNotes := rfl
  constructor
  · intro i hi
    rw [hg]
    exact pianoNotes_freq_lt_freq (Nat.lt_succ_self i) hi
  · intro i hi
    rw [hg, pianoNotes_getD i hi]

/-- Witness for C6 at the concrete index 0. -/
theorem C6_monotone_and_names_witness :
    (generatePianoNotes.getD 0 default).frequency <
      (generatePianoNotes.getD 1 default).frequency ∧
    (generatePianoNotes.getD 0 default).name = noteNames.getD 0 "" ++ toString 2 :=
  ⟨C6_monotone_and_names.1 0 (by norm_num), C6_monotone_and_names.2 0 (by norm_num)⟩

/-! ### Numeric bounds on the twelfth root of two -/

theorem rpow_twelfth_eq : ((2 : ℝ) ^ ((1 : ℝ) / 12)) ^ (12 : ℕ) = 2 := by
  rw [← Real.rpow_natCast ((2 : ℝ) ^ ((1 : ℝ) / 12)) 12]
  rw [← Real.rpow_mul (by norm_num : (0 : ℝ) ≤ 2)]
  norm_num

theorem twelfth_root_pos : 0 < (2 : ℝ) ^ ((1 : ℝ) / 12) :=
  Real.rpow_pos_of_pos (by norm_num) _

theorem twelfth_root_lb : (1.059 : ℝ) < (2 : ℝ) ^ ((1 : ℝ) / 12) := by
  by_contra h
  push_neg at h
  have h12 : ((2 : ℝ) ^ ((1 : ℝ) / 12)) ^ (12 : ℕ) ≤ (1.059 : ℝ) ^ (12 : ℕ) :=
    pow_le_pow_left₀ (le_of_lt twelfth_root_pos) h 12
  rw [rpow_twelfth_eq] at h12
  norm_num at h12

theorem twelfth_root_ub : (2 : ℝ) ^ ((1 : ℝ) / 12) < 1.06 := by
  by_contra h
  push_neg at h
  have h12 : (1.06 : ℝ) ^ (12 : ℕ) ≤ ((2 : ℝ) ^ ((1 : ℝ) / 12)) ^ (12 : ℕ) :=
    pow_le_pow_left₀ (by norm_num) h 12
  rw [rpow_twelfth_eq] at h12
  norm_num at h12

/-! ### Fold lemmas for `findClosestNote` -/

theorem foldl_closest_fst_mem (x : ℝ) :
    ∀ (l : List Note) (acc : Note × ℝ),
      (l.foldl (closestStep x) acc).1 = acc.1 ∨ (l.foldl (closestStep x) acc).1 ∈ l := by
  intro l
  induction l with
  | nil => intro acc; exact Or.inl rfl
  | cons n t ih =>
    intro acc
    rw [List.foldl_cons]
    by_cases hc : |x - n.frequency| < acc.2
    · have hstep : closestStep x acc n = (n, |x - n.frequency|) := by
        rw [closestStep, if_pos hc]
      rw [hstep]
      rcases ih (n, |x - n.frequency|) with h | h
      · exact Or.inr (by rw [h]; exact List.mem_cons_self n t)
      · exact Or.inr (List.mem_cons_of_mem n h)
    · have hstep : closestStep x acc n = acc := by
        rw [closestStep, if_neg hc]
      rw [hstep]
      rcases ih acc with h | h
      · exact Or.inl h
      · exact Or.inr (List.mem_cons_of_mem n h)

theorem foldl_closest_no_improve (x : ℝ) :
    ∀ (l : List Note) (acc : Note × ℝ),
      (∀ n ∈ l, acc.2 ≤ |x - n.frequency|) →
      l.foldl (closestStep x) acc = acc := by
  intro l
  induction l with
  | nil => intro acc _; rfl
  | cons n t ih =>
    intro acc h
    rw [List.foldl_cons]
    have hstep : closestStep x acc n = acc := by
      rw [closestStep]
      rw [if_neg (not_lt.mpr (h n (List.mem_cons_self n t)))]
    rw [hstep]
    exact ih acc fun m hm => h m (List.mem_cons_of_mem n hm)

theorem foldl_closest_first (x : ℝ) (m : Note) :
    ∀ (l₁ : List Note) (l₂ : List Note) (acc : Note × ℝ),
      |x - m.frequency| < acc.2 →
      (∀ n ∈ l₁, |x - m.frequency| < |x - n.frequency|) →
      (∀ n ∈ l₂, |x - m.frequency| ≤ |x - n.frequency|) →
      (l₁ ++ m :: l₂).foldl (closestStep x) acc = (m, |x - m.frequency|) := by
  intro l₁
  induction l₁ with
  | nil =>
    intro l₂ acc hacc _ h₂
    rw [List.nil_append, List.foldl_cons]
    have hstep : closestStep x acc m = (m, |x - m.frequency|) := by
      rw [closestStep, if_pos hacc]
    rw [hstep]
    exact foldl_closest_no_improve x l₂ _ fun n hn => h₂ n hn
  | cons n t ih =>
    intro l₂ acc hacc h₁ h₂
    rw [List.cons_append, List.foldl_cons]
    have hn := h₁ n (List.mem_cons_self n t)
    have h₁' : ∀ p ∈ t, |x - m.frequency| < |x - p.frequency| :=
      fun p hp => h₁ p (List.mem_cons_of_mem n hp)
    rw [closestStep]
    by_cases hc : |x - n.frequency| < acc.2
    · rw [if_pos hc]
      exact ih l₂ (n, |x - n.frequency|) hn h₁' h₂
    · rw [if_neg hc]
      exact ih l₂ acc hacc h₁' h₂

/-- Characterization of `findClosestNote`: if the entry at index `k` is
strictly closer than every earlier entry and at least as close as every
later entry, the scan returns it (the first minimizer wins). -/
theorem findClosestNote_eq_getD (x : ℝ) (k : ℕ) (hk : k < 61)
    (hlow : ∀ j, j < k →
      |x - (pianoNotes.getD k default).frequency| <
        |x - (pianoNotes.getD j default).frequency|)
    (hhigh : ∀ j, k < j → j < 61 →
      |x - (pianoNotes.getD k default).frequency| ≤
        |x - (pianoNotes.getD j default).frequency|) :
    findClosestNote x = pianoNotes.getD k default := by
  obtain ⟨a, t, hat⟩ := List.exists_cons_of_ne_nil
    (by rw [← List.length_pos_iff_ne_nil, pianoNotes_length]; norm_num :
      pianoNotes ≠ [])
  have hlt : t.length = 60 := by
    have := pianoNotes_length
    rw [hat, List.length_cons] at this
    omega
  have hgetD : ∀ j (h : j < 61), pianoNotes.getD j default = (a :: t).get ⟨j, by
      rw [List.length_cons, hlt]; omega⟩ := by
    intro j h
    have hj : j < (a :: t).length := by rw [List.length_cons, hlt]; omega
    rw [hat, List.getD_eq_getElem _ _ hj]
    rfl
  have hfold : findClosestNote x =
      (t.foldl (closestStep x) (a, |x - a.frequency|)).1 := by
    rw [findClosestNote, hat]
    rfl
  have ha0 : pianoNotes.getD 0 default = a := by rw [hgetD 0 (by norm_num)]; rfl
  rcases Nat.eq_zero_or_pos k with hk0 | hkpos
  · subst hk0
    rw [hfold]
    have hni : ∀ n ∈ t, |x - a.frequency| ≤ |x - n.frequency| := by
      intro n hn
      obtain ⟨j, hj, hjn⟩ := List.mem_iff_getElem.mp hn
      have hj61 : j + 1 < 61 := by omega
      have := hhigh (j + 1) (by omega) hj61
      rw [ha0] at this
      rw [hgetD (j + 1) hj61] at this
      simp only [List.get_eq_getElem, List.getElem_cons_succ] at this
      rw [hjn] at this
      exact this
    rw [foldl_closest_no_improve x t (a, |x - a.frequency|) hni]
    rw [ha0]
  · obtain ⟨k', rfl⟩ : ∃ k', k = k' + 1 := ⟨k - 1, by omega⟩
    have hk't : k' < t.length := by omega
    have hmk : pianoNotes.getD (k' + 1) default = t[k'] := by
      rw [hgetD (k' + 1) hk]
      simp only [List.get_eq_getElem, List.getElem_cons_succ]
    have hsplit : t = t.take k' ++ t[k'] :: t.drop (k' + 1) := by
      rw [← List.drop_eq_getElem_cons hk't, List.take_append_drop]
    rw [hfold, hsplit]
    have hacc : |x - t[k'].frequency| < |x - a.frequency| := by
      have := hlow 0 (by omega)
      rw [ha0, hmk] at this
      exact this
    have h₁ : ∀ n ∈ t.take k', |x - t[k'].frequency| < |x - n.frequency| := by
      intro n hn
      obtain ⟨j, hj, hjn⟩ := List.mem_iff_getElem.mp hn
      have hjk' : j < k' := by
        have := hj
        rw [List.length_take] at this
        omega
      have hj61 : j + 1 < 61 := by omega
      have := hlow (j + 1) (by omega)
      rw [hmk, hgetD (j + 1) hj61] at this
      simp only [List.get_eq_getElem, List.getElem_cons_succ] at this
      rw [← hjn, List.getElem_take]
      exact this
    have h₂ : ∀ n ∈ t.drop (k' + 1), |x - t[k'].frequency| ≤ |x - n.frequency| := by
      intro n hn
      obtain ⟨j, hj, hjn⟩ := List.mem_iff_getElem.mp hn
      have hjd : k' + 1 + j < t.length := by
        have := hj
        rw [List.length_drop] at this
        omega
      have hj61 : k' + 1 + j + 1 < 61 := by omega
      have := hhigh (k' + 1 + j + 1) (by omega) hj61
      rw [hmk, hgetD (k' + 1 + j + 1) hj61] at this
      simp only [List.get_eq_getElem, List.getElem_cons_succ] at this
      rw [← hjn, List.getElem_drop]
      exact this
    rw [foldl_closest_first x t[k'] (t.take k') (t.drop (k' + 1))
      (a, |x - a.frequency|) hacc h₁ h₂]
    exact hmk.symm

theorem pianoNotes_ne_nil : pianoNotes ≠ [] := by
  rw [← List.length_pos_iff_ne_nil, pianoNotes_length]; norm_num

theorem findClosestNote_mem (x : ℝ) : findClosestNote x ∈ pianoNotes := by
  obtain ⟨a, t, hat⟩ := List.exists_cons_of_ne_nil pianoNotes_ne_nil
  rw [findClosestNote, hat]
  show (t.foldl (closestStep x) (a, |x - a.frequency|)).1 ∈ a :: t
  rcases foldl_closest_fst_mem x t (a, |x - a.frequency|) with h | h
  · rw [h]; exact List.mem_cons_self a t
  · exact List.mem_cons_of_mem a h

/-! ### C4: totality, exact match, halfway tie-break -/

/-- C4: `findClosestNote` always returns a table entry; an input equal to
`table[k].frequency` returns `table[k]`; an input exactly halfway between
`table[k]` and `table[k+1]` returns `table[k]` (strict `<` keeps the first,
lower-frequency, candidate on an exact tie). -/
theorem C4_nearest_note :
    (∀ x : ℝ, findClosestNote x ∈ pianoNotes) ∧
    (∀ k, k < 61 →
      findClosestNote ((pianoNotes.getD k default).frequency) = pianoNotes.getD k default) ∧
    (∀ k, k + 1 < 61 →
      findClosestNote (((pianoNotes.getD k default).frequency +
          (pianoNotes.getD (k + 1) default).frequency) / 2) = pianoNotes.getD k default) := by
  refine ⟨findClosestNote_mem, ?_, ?_⟩
  · intro k hk
    apply findClosestNote_eq_getD _ k hk
    · intro j hj
      have hlt := pianoNotes_freq_lt_freq hj hk
      rw [sub_self, abs_zero]
      exact abs_pos.mpr (sub_ne_zero.mpr (ne_of_gt hlt))
    · intro j _ _
      rw [sub_self, abs_zero]
      exact abs_nonneg _
  · intro k hk1
    have hk : k < 61 := by omega
    set fk := (pianoNotes.getD k default).frequency with hfk
    set fk1 := (pianoNotes.getD (k + 1) default).frequency with hfk1
    have hlt : fk < fk1 := pianoNotes_freq_lt_freq (Nat.lt_succ_self k) hk1
    set x := (fk + fk1) / 2 with hx
    have hd : |x - fk| = (fk1 - fk) / 2 := by
      rw [abs_of_nonneg (by rw [hx]; linarith)]
      rw [hx]; ring
    apply findClosestNote_eq_getD x k hk
    · intro j hj
      have hjlt := pianoNotes_freq_lt_freq hj hk
      rw [hd, abs_of_nonneg (by linarith [hjlt] :
        (0 : ℝ) ≤ x - (pianoNotes.getD j default).frequency)]
      have : (pianoNotes.getD j default).frequency < fk := hjlt
      rw [hx]
      linarith
    · intro j hkj hj61
      rw [hd]
      rcases Nat.lt_or_ge j (k + 2) with hj2 | hj2
      · have hjeq : j = k + 1 := by omega
        subst hjeq
        rw [abs_of_nonpos (by rw [hx]; linarith : x - fk1 ≤ 0)]
        rw [hx]
        linarith
      · have hjlt : fk1 < (pianoNotes.getD j default).frequency :=
          pianoNotes_freq_lt_freq (by omega) hj61
        rw [abs_of_nonpos (by rw [hx]; linarith :
          x - (pianoNotes.getD j default).frequency ≤ 0)]
        rw [hx]
        linarith

/-- Witness for C4 at the reference entry (index 33) and the pair (33, 34). -/
theorem C4_nearest_note_witness :
    findClosestNote (440 : ℝ) ∈ pianoNotes ∧
    findClosestNote ((pianoNotes.getD 33 default).frequency) = pianoNotes.getD 33 default ∧
    findClosestNote (((pianoNotes.getD 33 default).frequency +
        (pianoNotes.getD 34 default).frequency) / 2) = pianoNotes.getD 33 default :=
  ⟨C4_nearest_note.1 440, C4_nearest_note.2.1 33 (by norm_num),
    C4_nearest_note.2.2 33 (by norm_num)⟩

/-! ### Peak-scan lemmas -/

theorem highFreqLimit_eq : highFreqLimit = 102 := by
  have h : ⌊(2200 : ℝ) / freqResolution⌋ = 102 := by
    rw [freqResolution, sampleRate, framesPerBuffer]
    rw [Int.floor_eq_iff]
    constructor <;> norm_num
  rw [highFreqLimit, h]
  rfl

theorem peakFold_fst_lt (mags : List ℝ) (B : ℝ) :
    ∀ (idxs : List ℕ) (acc : ℝ × ℕ), acc.1 < B →
      (∀ i ∈ idxs, mags.getD i 0 < B) →
      ((idxs.foldl (peakStep mags) acc).1 < B) := by
  intro idxs
  induction idxs with
  | nil => intro acc hacc _; exact hacc
  | cons i t ih =>
    intro acc hacc h
    rw [List.foldl_cons]
    by_cases hc : mags.getD i 0 > acc.1
    · have hstep : peakStep mags acc i = (mags.getD i 0, i) := by
        rw [peakStep, if_pos hc]
      rw [hstep]
      exact ih _ (h i (List.mem_cons_self i t)) fun j hj => h j (List.mem_cons_of_mem i hj)
    · have hstep : peakStep mags acc i = acc := by
        rw [peakStep, if_neg hc]
      rw [hstep]
      exact ih acc hacc fun j hj => h j (List.mem_cons_of_mem i hj)

theorem peakFold_no_improve (mags : List ℝ) :
    ∀ (idxs : List ℕ) (acc : ℝ × ℕ),
      (∀ i ∈ idxs, mags.getD i 0 ≤ acc.1) →
      idxs.foldl (peakStep mags) acc = acc := by
  intro idxs
  induction idxs with
  | nil => intro acc _; rfl
  | cons i t ih =>
    intro acc h
    rw [List.foldl_cons]
    have hstep : peakStep mags acc i = acc := by
      rw [peakStep, if_neg (not_lt.mpr (h i (List.mem_cons_self i t)))]
    rw [hstep]
    exact ih acc fun j hj => h j (List.mem_cons_of_mem i hj)

/-- The scan returns the first bin attaining the (positive) maximum of the
scanned range: earlier bins are strictly smaller, later bins no larger. -/
theorem peakScan_eq_of_first_max (mags : List ℝ) (k : ℕ)
    (hk : k < min highFreqLimit mags.length)
    (hpos : 0 < mags.getD k 0)
    (hlow : ∀ i, i < k → mags.getD i 0 < mags.getD k 0)
    (hhigh : ∀ i, k < i → i < min highFreqLimit mags.length →
      mags.getD i 0 ≤ mags.getD k 0) :
    peakScan mags = (mags.getD k 0, k) := by
  set n := min highFreqLimit mags.length with hn
  obtain ⟨r, hr⟩ : ∃ r, n = (k + 1) + r := ⟨n - (k + 1), by omega⟩
  rw [peakScan, ← hn, hr, List.range_add, List.foldl_append, List.range_succ,
    List.foldl_append]
  have hpre : ((List.range k).foldl (peakStep mags) (0, 0)).1 < mags.getD k 0 := by
    apply peakFold_fst_lt mags (mags.getD k 0) (List.range k) (0, 0) hpos
    intro i hi
    exact hlow i (List.mem_range.mp hi)
  have hstep : ∀ acc : ℝ × ℕ, acc.1 < mags.getD k 0 →
      [k].foldl (peakStep mags) acc = (mags.getD k 0, k) := by
    intro acc hacc
    show peakStep mags acc k = _
    rw [peakStep, if_pos hacc]
  rw [hstep _ hpre]
  apply peakFold_no_improve
  intro i hi
  obtain ⟨j, hj, hij⟩ := List.mem_map.mp hi
  have hjr : j < r := List.mem_range.mp hj
  exact hhigh i (by omega) (by omega)

/-- If every magnitude in the scanned range is non-positive, nothing beats
the initial accumulator `(0, 0)`. -/
theorem peakScan_of_nonpos (mags : List ℝ)
    (h : ∀ i, i < min highFreqLimit mags.length → mags.getD i 0 ≤ 0) :
    peakScan mags = (0, 0) := by
  rw [peakScan]
  apply peakFold_no_improve
  intro i hi
  exact h i (List.mem_range.mp hi)

/-! ### C9: ties go to the lowest bin -/

/-- C9: when the maximal magnitude over the scanned range is attained at
several bins, the scan reports the lowest such bin (strict `>` never
replaces an equal value), hence the smallest tied frequency. -/
theorem C9_tie_lowest_bin (mags : List ℝ)
    (hnn : ∀ i, i < min highFreqLimit mags.length → 0 ≤ mags.getD i 0)
    (k : ℕ) (hk : k < min highFreqLimit mags.length)
    (hmax : ∀ i, i < min highFreqLimit mags.length → mags.getD i 0 ≤ mags.getD k 0)
    (hleast : ∀ i, i < k → mags.getD i 0 < mags.getD k 0) :
    peakScan mags = (mags.getD k 0, k) := by
  rcases lt_or_eq_of_le (hnn k hk) with hpos | hzero
  · exact peakScan_eq_of_first_max mags k hk hpos hleast fun i hki hi => hmax i hi
  · have hk0 : k = 0 := by
      by_contra hne
      have h0 := hleast 0 (Nat.pos_of_ne_zero hne)
      have := hnn 0 (by omega)
      rw [← hzero] at h0
      linarith
    subst hk0
    rw [peakScan_of_nonpos mags fun i hi => le_trans (hmax i hi) (le_of_eq hzero.symm)]
    rw [← hzero]

/-- Witness for C9: a concrete tie, `[2, 3, 3, 1]`, resolved to bin 1. -/
theorem C9_tie_lowest_bin_witness :
    peakScan [(2 : ℝ), 3, 3, 1] = (3, 1) := by
  have h := C9_tie_lowest_bin [(2 : ℝ), 3, 3, 1]
    (by intro i hi
        rw [highFreqLimit_eq] at hi
        norm_num at hi
        interval_cases i <;> norm_num [List.getD])
    1
    (by rw [highFreqLimit_eq]; norm_num)
    (by intro i hi
        rw [highFreqLimit_eq] at hi
        norm_num at hi
        interval_cases i <;> norm_num [List.getD])
    (by intro i hi
        interval_cases i
        norm_num [List.getD])
  rw [h]
  norm_num [List.getD]

/-! ### The sample-filling loop: zero padding, no out-of-range writes -/

theorem writeSeq_append (xs : List ℂ) :
    ∀ (pre buf : List ℂ), xs.length ≤ buf.length →
      writeSeq (pre ++ buf) xs pre.length = some (pre ++ xs ++ buf.drop xs.length) := by
  induction xs with
  | nil =>
    intro pre buf _
    show some (pre ++ buf) = _
    simp
  | cons x rest ih =>
    intro pre buf hlen
    obtain ⟨b, bt, rfl⟩ := List.exists_cons_of_ne_nil
      (by intro hnil; rw [hnil] at hlen; simp at hlen : buf ≠ [])
    have hi : pre.length < (pre ++ b :: bt).length := by
      rw [List.length_append, List.length_cons]; omega
    show (if pre.length < (pre ++ b :: bt).length then
        writeSeq ((pre ++ b :: bt).set pre.length x) rest (pre.length + 1)
      else none) = _
    rw [if_pos hi]
    have hset : (pre ++ b :: bt).set pre.length x = (pre ++ [x]) ++ bt := by
      rw [List.set_append_right _ _ (le_refl _), Nat.sub_self]
      show pre ++ x :: bt = (pre ++ [x]) ++ bt
      simp
    have hlen1 : pre.length + 1 = (pre ++ [x]).length := by
      rw [List.length_append, List.length_singleton]
    rw [hset, hlen1, ih (pre ++ [x]) bt (by
      rw [List.length_cons] at hlen
      simpa using Nat.le_of_succ_le_succ hlen)]
    rw [List.length_cons, List.drop_succ_cons]
    simp

theorem samplesOf_eq (input : List ℝ) (h : input.length ≤ framesPerBuffer) :
    samplesOf input =
      some (input.map Complex.ofReal ++
        List.replicate (framesPerBuffer - input.length) 0) := by
  rw [samplesOf]
  have := writeSeq_append (input.map Complex.ofReal) []
    (List.replicate framesPerBuffer 0)
    (by rw [List.length_map, List.length_replicate]; exact h)
  rw [List.nil_append, List.length_nil] at this
  rw [this, List.nil_append, List.drop_replicate, List.length_map]

theorem detectFromMags_ne_panic (mags : List ℝ) :
    detectFromMags mags ≠ ProcResult.panic := by
  simp only [detectFromMags]
  split
  · intro hcon; exact ProcResult.noConfusion hcon
  · intro hcon; exact ProcResult.noConfusion hcon

/-! ### C10: no out-of-range access, implicit zero padding -/

/-- C10: on any block of at most `framesPerBuffer` samples, `processAudio`
never hits an out-of-range write (no panic), and the sample buffer is the
input zero-padded to `framesPerBuffer`. -/
theorem C10_no_out_of_range (input : List ℝ) (h : input.length ≤ framesPerBuffer) :
    processAudio input ≠ ProcResult.panic ∧
    samplesOf input =
      some (input.map Complex.ofReal ++
        List.replicate (framesPerBuffer - input.length) 0) := by
  have hs := samplesOf_eq input h
  refine ⟨?_, hs⟩
  rw [processAudio, hs]
  exact detectFromMags_ne_panic _

/-- Witness for C10 at the concrete empty block. -/
theorem C10_no_out_of_range_witness :
    processAudio [] ≠ ProcResult.panic ∧
    samplesOf [] =
      some (List.map Complex.ofReal ([] : List ℝ) ++
        List.replicate (framesPerBuffer - ([] : List ℝ).length) 0) :=
  C10_no_out_of_range [] (by rw [framesPerBuffer]; norm_num)

/-! ### Unfolding `processAudio` and `detectFromMags` -/

theorem detectFromMags_eq (mags : List ℝ) :
    detectFromMags mags =
      if (peakScan mags).1 > 0.05 then
        ProcResult.detected
          ⟨if ((peakScan mags).2 : ℝ) * freqResolution > 261.0 then
              (if |((peakScan mags).2 : ℝ) * freqResolution / 2 -
                    (findClosestNote (((peakScan mags).2 : ℝ) * freqResolution / 2)).frequency| <
                  freqResolution then
                findClosestNote (((peakScan mags).2 : ℝ) * freqResolution / 2)
              else findClosestNote (((peakScan mags).2 : ℝ) * freqResolution))
            else findClosestNote (((peakScan mags).2 : ℝ) * freqResolution),
            ((peakScan mags).2 : ℝ) * freqResolution, (peakScan mags).1⟩
      else ProcResult.idle := rfl

theorem processAudio_eq (input : List ℝ) (s : List ℂ) (hs : samplesOf input = some s) :
    processAudio input = detectFromMags (magnitudesOf s) := by
  rw [processAudio, hs]

/-! ### C3: strict threshold -/

/-- C3: a detection is emitted exactly when the peak magnitude is strictly
greater than 0.05; at or below 0.05 the block yields no output. -/
theorem C3_threshold_strict (input : List ℝ) (s : List ℂ)
    (hs : samplesOf input = some s) :
    ((peakScan (magnitudesOf s)).1 > 0.05 →
      ∃ r, processAudio input = ProcResult.detected r) ∧
    ((peakScan (magnitudesOf s)).1 ≤ 0.05 →
      processAudio input = ProcResult.idle) := by
  have hpa := processAudio_eq input s hs
  constructor
  · intro h
    rw [hpa, detectFromMags_eq, if_pos h]
    exact ⟨_, rfl⟩
  · intro h
    rw [hpa, detectFromMags_eq, if_neg (not_lt.mpr h)]

/-! ### Evaluating the DFT -/

theorem dft_getD (s : List ℂ) (k : ℕ) (hk : k < s.length) :
    (dft s).getD k 0 =
      ∑ n ∈ Finset.range s.length,
        s.getD n 0 *
          Complex.exp (-(2 * (Real.pi : ℂ) * Complex.I * (k : ℂ) * (n : ℂ)) /
            (s.length : ℂ)) := by
  rw [dft, getD_map_range _ _ _ hk]

theorem magnitudesOf_length (s : List ℂ) :
    (magnitudesOf s).length = framesPerBuffer / 2 := by
  rw [magnitudesOf, List.length_map, List.length_range]

theorem magnitudesOf_getD (s : List ℂ) (i : ℕ) (hi : i < framesPerBuffer / 2) :
    (magnitudesOf s).getD i 0 = Complex.abs ((dft s).getD i 0) := by
  rw [magnitudesOf, getD_map_range _ _ _ hi, Complex.abs_apply, Complex.normSq_apply]

theorem framesPerBuffer_cast_ne : (framesPerBuffer : ℂ) ≠ 0 := by
  rw [framesPerBuffer]; norm_num

theorem two_pi_I_ne : 2 * (Real.pi : ℂ) * Complex.I ≠ 0 := by
  apply mul_ne_zero
  · apply mul_ne_zero
    · norm_num
    · exact Complex.ofReal_ne_zero.mpr Real.pi_ne_zero
  · exact Complex.I_ne_zero

theorem rootSum_not_dvd (m : ℤ) (hm : ¬ ((framesPerBuffer : ℤ) ∣ m)) :
    ∑ n ∈ Finset.range framesPerBuffer,
      Complex.exp (2 * (Real.pi : ℂ) * Complex.I * (m : ℂ) * (n : ℂ) /
        (framesPerBuffer : ℂ)) = 0 := by
  set z := Complex.exp (2 * (Real.pi : ℂ) * Complex.I * (m : ℂ) / (framesPerBuffer : ℂ))
    with hz
  have hzn : ∀ n : ℕ, Complex.exp (2 * (Real.pi : ℂ) * Complex.I * (m : ℂ) * (n : ℂ) /
      (framesPerBuffer : ℂ)) = z ^ n := by
    intro n
    rw [hz, ← Complex.exp_nat_mul]
    congr 1
    ring
  have hz1 : z ≠ 1 := by
    intro hcon
    obtain ⟨j, hj⟩ := Complex.exp_eq_one_iff.mp hcon
    apply hm
    have h2 : (2 * (Real.pi : ℂ) * Complex.I) * (m : ℂ) =
        (2 * (Real.pi : ℂ) * Complex.I) * ((j : ℂ) * (framesPerBuffer : ℂ)) := by
      have hN := framesPerBuffer_cast_ne
      field_simp at hj
      linear_combination hj
    have h4 : (m : ℂ) = (j : ℂ) * (framesPerBuffer : ℂ) :=
      mul_left_cancel₀ two_pi_I_ne h2
    have h5 : m = j * (framesPerBuffer : ℤ) := by exact_mod_cast h4
    exact ⟨j, by rw [h5]; ring⟩
  rw [Finset.sum_congr rfl fun n _ => hzn n]
  rw [geom_sum_eq hz1 framesPerBuffer]
  have hzN : z ^ framesPerBuffer = 1 := by
    rw [hz, ← Complex.exp_nat_mul]
    have harg : (framesPerBuffer : ℂ) *
        (2 * (Real.pi : ℂ) * Complex.I * (m : ℂ) / (framesPerBuffer : ℂ)) =
        (m : ℂ) * (2 * (Real.pi : ℂ) * Complex.I) := by
      have hN := framesPerBuffer_cast_ne
      field_simp
      ring
    rw [harg, Complex.exp_int_mul_two_pi_mul_I]
  rw [hzN, sub_self, zero_div]

theorem rootSum_dvd (m : ℤ) (hm : (framesPerBuffer : ℤ) ∣ m) :
    ∑ n ∈ Finset.range framesPerBuffer,
      Complex.exp (2 * (Real.pi : ℂ) * Complex.I * (m : ℂ) * (n : ℂ) /
        (framesPerBuffer : ℂ)) = (framesPerBuffer : ℂ) := by
  obtain ⟨c, rfl⟩ := hm
  have hone : ∀ n : ℕ, Complex.exp (2 * (Real.pi : ℂ) * Complex.I *
      (((framesPerBuffer : ℤ) * c : ℤ) : ℂ) * (n : ℂ) / (framesPerBuffer : ℂ)) = 1 := by
    intro n
    have harg : 2 * (Real.pi : ℂ) * Complex.I * (((framesPerBuffer : ℤ) * c : ℤ) : ℂ) *
        (n : ℂ) / (framesPerBuffer : ℂ) =
        ((c * n : ℤ) : ℂ) * (2 * (Real.pi : ℂ) * Complex.I) := by
      have hN := framesPerBuffer_cast_ne
      push_cast
      field_simp
      ring
    rw [harg, Complex.exp_int_mul_two_pi_mul_I]
  rw [Finset.sum_congr rfl fun n _ => hone n]
  rw [Finset.sum_const, Finset.card_range, nsmul_eq_mul, mul_one]

/-! ### Constant blocks: spike at bin 0 -/

theorem dft_const_getD (c : ℝ) (k : ℕ) (hk : k < framesPerBuffer) :
    (dft (List.replicate framesPerBuffer (Complex.ofReal c))).getD k 0 =
      if k = 0 then (framesPerBuffer : ℂ) * (c : ℂ) else 0 := by
  have hlen : (List.replicate framesPerBuffer (Complex.ofReal c)).length = framesPerBuffer :=
    List.length_replicate _ _
  rw [dft_getD _ k (by rw [hlen]; exact hk), hlen]
  have hgd : ∀ n ∈ Finset.range framesPerBuffer,
      (List.replicate framesPerBuffer (Complex.ofReal c)).getD n 0 *
        Complex.exp (-(2 * (Real.pi : ℂ) * Complex.I * (k : ℂ) * (n : ℂ)) /
          (framesPerBuffer : ℂ)) =
      (c : ℂ) * Complex.exp (2 * (Real.pi : ℂ) * Complex.I * ((-(k : ℤ) : ℤ) : ℂ) *
        (n : ℂ) / (framesPerBuffer : ℂ)) := by
    intro n hn
    have hn' := Finset.mem_range.mp hn
    rw [List.getD_eq_getElem _ _ (by rw [hlen]; exact hn'), List.getElem_replicate]
    congr 2
    push_cast
    ring
  rw [Finset.sum_congr rfl hgd, ← Finset.mul_sum]
  by_cases h0 : k = 0
  · subst h0
    rw [if_pos rfl]
    have : (-(0 : ℕ) : ℤ) = 0 := by norm_num
    rw [show (-((0 : ℕ) : ℤ) : ℤ) = (0 : ℤ) by norm_num]
    rw [rootSum_dvd 0 (dvd_zero _)]
    ring
  · rw [if_neg h0]
    rw [rootSum_not_dvd (-(k : ℤ)) (by
      rw [framesPerBuffer] at hk ⊢
      omega)]
    rw [mul_zero]

theorem mags_const_getD (c : ℝ) (hc : 0 ≤ c) (i : ℕ) (hi : i < framesPerBuffer / 2) :
    (magnitudesOf (List.replicate framesPerBuffer (Complex.ofReal c))).getD i 0 =
      if i = 0 then (framesPerBuffer : ℝ) * c else 0 := by
  rw [magnitudesOf_getD _ i hi]
  have hik : i < framesPerBuffer := by
    rw [framesPerBuffer] at hi ⊢
    omega
  rw [dft_const_getD c i hik]
  by_cases h0 : i = 0
  · rw [if_pos h0, if_pos h0]
    rw [show (framesPerBuffer : ℂ) * (c : ℂ) = ((framesPerBuffer * c : ℝ) : ℂ) by push_cast; ring]
    rw [Complex.abs_ofReal, abs_of_nonneg (mul_nonneg (by positivity) hc)]
  · rw [if_neg h0, if_neg h0, map_zero]

theorem samplesOf_replicate (c : ℝ) :
    samplesOf (List.replicate framesPerBuffer c) =
      some (List.replicate framesPerBuffer (Complex.ofReal c)) := by
  rw [samplesOf_eq _ (le_of_eq (List.length_replicate _ _))]
  rw [List.length_replicate, Nat.sub_self, List.map_replicate]
  simp

/-! ### C7: silence yields no detection -/

/-- C7: an all-zero block has an all-zero magnitude spectrum, the peak scan
returns frequency bin 0 with magnitude 0, and the pipeline emits nothing. -/
theorem C7_silence_idle :
    (∀ m ∈ magnitudesOf (List.replicate framesPerBuffer (Complex.ofReal 0)), m = 0) ∧
    peakScan (magnitudesOf (List.replicate framesPerBuffer (Complex.ofReal 0))) = (0, 0) ∧
    processAudio (List.replicate framesPerBuffer (0 : ℝ)) = ProcResult.idle := by
  have hmem : ∀ m ∈ magnitudesOf (List.replicate framesPerBuffer (Complex.ofReal 0)), m = 0 := by
    intro m hm
    obtain ⟨i, hi, him⟩ := List.mem_iff_getElem.mp hm
    have hi' : i < framesPerBuffer / 2 := by
      rw [magnitudesOf_length] at hi
      exact hi
    have h0 := mags_const_getD 0 le_rfl i hi'
    rw [mul_zero, ite_self] at h0
    rw [← him, ← List.getD_eq_getElem _ 0 hi]
    exact h0
  have hscan : peakScan (magnitudesOf (List.replicate framesPerBuffer (Complex.ofReal 0)))
      = (0, 0) := by
    apply peakScan_of_nonpos
    intro i hi
    have hi2 : i < (magnitudesOf (List.replicate framesPerBuffer (Complex.ofReal 0))).length :=
      lt_of_lt_of_le hi (min_le_right _ _)
    rw [List.getD_eq_getElem _ _ hi2]
    rw [hmem _ (List.getElem_mem _)]
  refine ⟨hmem, hscan, ?_⟩
  have hpa := processAudio_eq _ _ (samplesOf_replicate 0)
  rw [hpa, detectFromMags_eq, hscan]
  rw [if_neg (by norm_num)]

/-- Witness for C3: a constant block whose spectrum peaks at exactly 0.05
(bin 0 carries `2048 * 0.05/2048`) produces no output. -/
theorem C3_threshold_strict_witness :
    samplesOf (List.replicate framesPerBuffer ((0.05 / 2048 : ℝ))) =
      some (List.replicate framesPerBuffer (Complex.ofReal (0.05 / 2048))) ∧
    (peakScan (magnitudesOf (List.replicate framesPerBuffer
      (Complex.ofReal (0.05 / 2048))))).1 ≤ 0.05 ∧
    processAudio (List.replicate framesPerBuffer ((0.05 / 2048 : ℝ))) = ProcResult.idle := by
  have hs := samplesOf_replicate (0.05 / 2048)
  have hg0 : (magnitudesOf (List.replicate framesPerBuffer
      (Complex.ofReal (0.05 / 2048)))).getD 0 0 = 0.05 := by
    rw [mags_const_getD (0.05 / 2048) (by norm_num) 0 (by rw [framesPerBuffer]; norm_num)]
    rw [if_pos rfl, framesPerBuffer]
    norm_num
  have hscan : peakScan (magnitudesOf (List.replicate framesPerBuffer
      (Complex.ofReal (0.05 / 2048)))) = (0.05, 0) := by
    have h := peakScan_eq_of_first_max
      (magnitudesOf (List.replicate framesPerBuffer (Complex.ofReal (0.05 / 2048)))) 0
      (by rw [magnitudesOf_length, highFreqLimit_eq, framesPerBuffer]; norm_num)
      (by rw [hg0]; norm_num)
      (by intro i hi; omega)
      (by intro i h0i hi
          have hi' : i < framesPerBuffer / 2 := by
            rw [magnitudesOf_length] at hi
            exact lt_of_lt_of_le hi (min_le_right _ _)
          rw [mags_const_getD (0.05 / 2048) (by norm_num) i hi', hg0]
          rw [if_neg (by omega)]
          norm_num)
    rw [hg0] at h
    exact h
  have hc3 := C3_threshold_strict (List.replicate framesPerBuffer ((0.05 / 2048 : ℝ))) _ hs
  refine ⟨hs, ?_, ?_⟩
  · rw [hscan]
  · exact hc3.2 (by rw [hscan])

/-! ### Locating A4 for concrete frequencies -/

/-- Being strictly closer to entry `k` than to both neighbors (in the signed
form that places `x` between them) wins against the whole sorted table. -/
theorem findClosestNote_eq_of_neighbors (x : ℝ) (k : ℕ) (hk : k < 61)
    (hl : 0 < k → |x - (pianoNotes.getD k default).frequency| <
        x - (pianoNotes.getD (k - 1) default).frequency)
    (hr : k + 1 < 61 → |x - (pianoNotes.getD k default).frequency| <
        (pianoNotes.getD (k + 1) default).frequency - x) :
    findClosestNote x = pianoNotes.getD k default := by
  apply findClosestNote_eq_getD x k hk
  · intro j hj
    have h1 := hl (by omega)
    have habs := abs_nonneg (x - (pianoNotes.getD k default).frequency)
    have hxk1 : (pianoNotes.getD (k - 1) default).frequency < x := by linarith
    have hjle : (pianoNotes.getD j default).frequency ≤
        (pianoNotes.getD (k - 1) default).frequency := by
      rcases Nat.lt_or_ge j (k - 1) with hj1 | hj1
      · exact le_of_lt (pianoNotes_freq_lt_freq hj1 (by omega))
      · have hje : j = k - 1 := by omega
        rw [hje]
    have hjabs : |x - (pianoNotes.getD j default).frequency| =
        x - (pianoNotes.getD j default).frequency :=
      abs_of_pos (by linarith)
    rw [hjabs]
    linarith
  · intro j hkj hj61
    have h1 := hr (by omega)
    have habs := abs_nonneg (x - (pianoNotes.getD k default).frequency)
    have hxk1 : x < (pianoNotes.getD (k + 1) default).frequency := by linarith
    have hjge : (pianoNotes.getD (k + 1) default).frequency ≤
        (pianoNotes.getD j default).frequency := by
      rcases Nat.lt_or_ge (k + 1) j with hj1 | hj1
      · exact le_of_lt (pianoNotes_freq_lt_freq hj1 hj61)
      · have hje : j = k + 1 := by omega
        rw [hje]
    have hjabs : |x - (pianoNotes.getD j default).frequency| =
        (pianoNotes.getD j default).frequency - x := by
      rw [abs_of_nonpos (by linarith)]
      ring
    rw [hjabs]
    linarith

theorem f33_eq : (pianoNotes.getD 33 default).frequency = 440 := by
  rw [pianoNotes_freq 33 (by norm_num)]
  norm_num

theorem f32_lt : (pianoNotes.getD 32 default).frequency < 415.5 := by
  rw [pianoNotes_freq 32 (by norm_num)]
  have heq : (2 : ℝ) ^ ((((32 : ℕ) : ℝ) - 33) / 12) = ((2 : ℝ) ^ ((1 : ℝ) / 12))⁻¹ := by
    rw [show (((32 : ℕ) : ℝ) - 33) / 12 = -(1 / 12) by push_cast; norm_num]
    rw [Real.rpow_neg (by norm_num : (0 : ℝ) ≤ 2)]
  rw [heq]
  have ha1 := twelfth_root_lb
  have hpos := twelfth_root_pos
  have hprod : (2 : ℝ) ^ ((1 : ℝ) / 12) * ((2 : ℝ) ^ ((1 : ℝ) / 12))⁻¹ = 1 :=
    mul_inv_cancel₀ (ne_of_gt hpos)
  have hinv_pos : 0 < ((2 : ℝ) ^ ((1 : ℝ) / 12))⁻¹ := inv_pos.mpr hpos
  nlinarith [hprod, ha1, hinv_pos]

theorem f34_gt : 465.9 < (pianoNotes.getD 34 default).frequency := by
  rw [pianoNotes_freq 34 (by norm_num)]
  have heq : (2 : ℝ) ^ ((((34 : ℕ) : ℝ) - 33) / 12) = (2 : ℝ) ^ ((1 : ℝ) / 12) := by
    rw [show (((34 : ℕ) : ℝ) - 33) / 12 = 1 / 12 by push_cast; norm_num]
  rw [heq]
  have ha1 := twelfth_root_lb
  nlinarith [ha1]

/-- Every frequency in `[430, 450]` is matched to the table entry A4. -/
theorem findClosest_A4_of_bounds (x : ℝ) (h1 : 430 ≤ x) (h2 : x ≤ 450) :
    findClosestNote x = pianoNotes.getD 33 default := by
  apply findClosestNote_eq_of_neighbors x 33 (by norm_num)
  · intro _
    have hf32 := f32_lt
    rw [f33_eq, show (33 : ℕ) - 1 = 32 from rfl]
    have habs : |x - 440| ≤ 10 := by
      rw [abs_le]
      constructor <;> linarith
    linarith
  · intro _
    have hf34 := f34_gt
    rw [f33_eq, show (33 : ℕ) + 1 = 34 from rfl]
    have habs : |x - 440| ≤ 10 := by
      rw [abs_le]
      constructor <;> linarith
    linarith

/-! ### A synthetic one-bin cosine block (dominant bin 41 ≈ 882.9 Hz) -/

/-- Test input: cosine aligned with bin 41 of the 2048-point transform. -/
noncomputable def spikeBlock : List ℝ :=
  (List.range framesPerBuffer).map fun n : ℕ =>
    Real.cos (2 * Real.pi * 41 * (n : ℝ) / (framesPerBuffer : ℝ))

/-- The complex samples `processAudio` builds from `spikeBlock`. -/
noncomputable def spikeSamples : List ℂ :=
  (List.range framesPerBuffer).map fun n : ℕ =>
    Complex.ofReal (Real.cos (2 * Real.pi * 41 * (n : ℝ) / (framesPerBuffer : ℝ)))

theorem spikeSamples_length : spikeSamples.length = framesPerBuffer := by
  rw [spikeSamples, List.length_map, List.length_range]

theorem samplesOf_spikeBlock : samplesOf spikeBlock = some spikeSamples := by
  have hlen : spikeBlock.length = framesPerBuffer := by
    rw [spikeBlock, List.length_map, List.length_range]
  rw [samplesOf_eq _ (le_of_eq hlen), hlen, Nat.sub_self, List.replicate_zero,
    List.append_nil]
  rw [spikeBlock, List.map_map]
  rfl

theorem dft_spike_getD (k : ℕ) (hk : k < framesPerBuffer / 2) :
    (dft spikeSamples).getD k 0 =
      if k = 41 then ((framesPerBuffer : ℂ) / 2) else 0 := by
  have hkN : k < framesPerBuffer := by
    rw [framesPerBuffer] at hk ⊢
    omega
  rw [dft_getD _ k (by rw [spikeSamples_length]; exact hkN), spikeSamples_length]
  have hgd : ∀ n ∈ Finset.range framesPerBuffer,
      spikeSamples.getD n 0 *
        Complex.exp (-(2 * (Real.pi : ℂ) * Complex.I * (k : ℂ) * (n : ℂ)) /
          (framesPerBuffer : ℂ)) =
      (1 / 2 : ℂ) *
        (Complex.exp (2 * (Real.pi : ℂ) * Complex.I * (((41 : ℤ) - k : ℤ) : ℂ) * (n : ℂ) /
          (framesPerBuffer : ℂ)) +
        Complex.exp (2 * (Real.pi : ℂ) * Complex.I * (((-41 : ℤ) - k : ℤ) : ℂ) * (n : ℂ) /
          (framesPerBuffer : ℂ))) := by
    intro n hn
    have hn' := Finset.mem_range.mp hn
    rw [spikeSamples, getD_map_range _ _ _ hn']
    rw [Complex.ofReal_cos, Complex.cos]
    rw [div_mul_eq_mul_div, add_mul, ← Complex.exp_add, ← Complex.exp_add]
    have hN := framesPerBuffer_cast_ne
    have e1 : (((2 * Real.pi * 41 * (n : ℝ) / (framesPerBuffer : ℝ) : ℝ)) : ℂ) * Complex.I +
        -(2 * (Real.pi : ℂ) * Complex.I * (k : ℂ) * (n : ℂ)) / (framesPerBuffer : ℂ) =
        2 * (Real.pi : ℂ) * Complex.I * (((41 : ℤ) - k : ℤ) : ℂ) * (n : ℂ) /
          (framesPerBuffer : ℂ) := by
      push_cast
      field_simp
      ring
    have e2 : -(((2 * Real.pi * 41 * (n : ℝ) / (framesPerBuffer : ℝ) : ℝ)) : ℂ) * Complex.I +
        -(2 * (Real.pi : ℂ) * Complex.I * (k : ℂ) * (n : ℂ)) / (framesPerBuffer : ℂ) =
        2 * (Real.pi : ℂ) * Complex.I * (((-41 : ℤ) - k : ℤ) : ℂ) * (n : ℂ) /
          (framesPerBuffer : ℂ) := by
      push_cast
      field_simp
      ring
    rw [e1, e2]
    ring
  rw [Finset.sum_congr rfl hgd, ← Finset.mul_sum, Finset.sum_add_distrib]
  by_cases h41 : k = 41
  · subst h41
    rw [if_pos rfl]
    rw [show ((41 : ℤ) - (41 : ℕ) : ℤ) = 0 by norm_num]
    rw [rootSum_dvd 0 (dvd_zero _)]
    rw [rootSum_not_dvd ((-41 : ℤ) - (41 : ℕ)) (by
      rw [framesPerBuffer]
      norm_num)]
    rw [framesPerBuffer]
    norm_num
  · rw [if_neg h41]
    rw [rootSum_not_dvd ((41 : ℤ) - k) (by
      rw [framesPerBuffer] at hk ⊢
      omega)]
    rw [rootSum_not_dvd ((-41 : ℤ) - k) (by
      rw [framesPerBuffer] at hk ⊢
      omega)]
    norm_num

theorem mags_spike_getD (i : ℕ) (hi : i < framesPerBuffer / 2) :
    (magnitudesOf spikeSamples).getD i 0 =
      if i = 41 then (framesPerBuffer : ℝ) / 2 else 0 := by
  rw [magnitudesOf_getD _ i hi, dft_spike_getD i hi]
  by_cases h41 : i = 41
  · rw [if_pos h41, if_pos h41]
    rw [show ((framesPerBuffer : ℂ) / 2) = (((framesPerBuffer : ℝ) / 2 : ℝ) : ℂ) by
      push_cast; ring]
    rw [Complex.abs_ofReal, abs_of_nonneg (by positivity)]
  · rw [if_neg h41, if_neg h41, map_zero]

theorem peakScan_spike :
    peakScan (magnitudesOf spikeSamples) = ((framesPerBuffer : ℝ) / 2, 41) := by
  have h41lt : (41 : ℕ) < framesPerBuffer / 2 := by rw [framesPerBuffer]; norm_num
  have hg41 : (magnitudesOf spikeSamples).getD 41 0 = (framesPerBuffer : ℝ) / 2 := by
    rw [mags_spike_getD 41 h41lt, if_pos rfl]
  have h := peakScan_eq_of_first_max (magnitudesOf spikeSamples) 41
    (by rw [magnitudesOf_length, highFreqLimit_eq, framesPerBuffer]; norm_num)
    (by rw [hg41, framesPerBuffer]; norm_num)
    (by intro i hi41
        have hi' : i < framesPerBuffer / 2 := by rw [framesPerBuffer]; omega
        rw [mags_spike_getD i hi', if_neg (by omega), hg41, framesPerBuffer]
        norm_num)
    (by intro i h41i hi
        have hi' : i < framesPerBuffer / 2 := by
          rw [magnitudesOf_length] at hi
          exact lt_of_lt_of_le hi (min_le_right _ _)
        rw [mags_spike_getD i hi', if_neg (by omega), hg41, framesPerBuffer]
        norm_num)
  rw [hg41] at h
  exact h

/-! ### C1: one-shot octave-down harmonic correction -/

/-- C1: whenever the peak magnitude exceeds 0.05 and the raw peak frequency
exceeds 261 Hz, the emitted note is `nearest(rawFreq/2)` when halving lands
within one bin width of a table note and `nearest(rawFreq)` otherwise, while
the emitted raw-frequency field is the pre-correction `rawFreq`. -/
theorem C1_harmonic_correction (input : List ℝ) (s : List ℂ)
    (hs : samplesOf input = some s)
    (hmag : (peakScan (magnitudesOf s)).1 > 0.05)
    (hfreq : ((peakScan (magnitudesOf s)).2 : ℝ) * freqResolution > 261.0) :
    processAudio input = ProcResult.detected
      ⟨if |((peakScan (magnitudesOf s)).2 : ℝ) * freqResolution / 2 -
            (findClosestNote (((peakScan (magnitudesOf s)).2 : ℝ) *
              freqResolution / 2)).frequency| < freqResolution then
          findClosestNote (((peakScan (magnitudesOf s)).2 : ℝ) * freqResolution / 2)
        else findClosestNote (((peakScan (magnitudesOf s)).2 : ℝ) * freqResolution),
        ((peakScan (magnitudesOf s)).2 : ℝ) * freqResolution,
        (peakScan (magnitudesOf s)).1⟩ := by
  rw [processAudio_eq input s hs, detectFromMags_eq, if_pos hmag, if_pos hfreq]

/-- Witness for C1: the bin-41 cosine block, whose dominant bin sits near
883 Hz while half of that frequency lands within one bin width of A4, is
emitted as A4 with the raw (uncorrected) frequency field. -/
theorem C1_harmonic_correction_witness :
    samplesOf spikeBlock = some spikeSamples ∧
    (peakScan (magnitudesOf spikeSamples)).1 > 0.05 ∧
    ((peakScan (magnitudesOf spikeSamples)).2 : ℝ) * freqResolution > 261.0 ∧
    processAudio spikeBlock = ProcResult.detected
      ⟨pianoNotes.getD 33 default,
        ((peakScan (magnitudesOf spikeSamples)).2 : ℝ) * freqResolution,
        (peakScan (magnitudesOf spikeSamples)).1⟩ ∧
    (pianoNotes.getD 33 default).name = "A4" := by
  have hs := samplesOf_spikeBlock
  have hscan := peakScan_spike
  have hmag : (peakScan (magnitudesOf spikeSamples)).1 > 0.05 := by
    rw [hscan, framesPerBuffer]
    norm_num
  have hfreq : ((peakScan (magnitudesOf spikeSamples)).2 : ℝ) * freqResolution > 261.0 := by
    rw [hscan, freqResolution, sampleRate, framesPerBuffer]
    norm_num
  have hmain := C1_harmonic_correction spikeBlock spikeSamples hs hmag hfreq
  have hfundval : ((peakScan (magnitudesOf spikeSamples)).2 : ℝ) * freqResolution / 2 =
      (41 : ℝ) * ((44100 : ℝ) / 2048) / 2 := by
    rw [hscan, freqResolution, sampleRate, framesPerBuffer]
    norm_num
  have hnear : findClosestNote
      (((peakScan (magnitudesOf spikeSamples)).2 : ℝ) * freqResolution / 2) =
      pianoNotes.getD 33 default := by
    rw [hfundval]
    apply findClosest_A4_of_bounds <;> norm_num
  have hcond : |((peakScan (magnitudesOf spikeSamples)).2 : ℝ) * freqResolution / 2 -
      (findClosestNote (((peakScan (magnitudesOf spikeSamples)).2 : ℝ) *
        freqResolution / 2)).frequency| < freqResolution := by
    rw [hnear, f33_eq, hfundval, freqResolution, sampleRate, framesPerBuffer]
    rw [abs_lt]
    constructor <;> norm_num
  rw [if_pos hcond, hnear] at hmain
  exact ⟨hs, hmag, hfreq, hmain, by rw [pianoNotes_getD 33 (by norm_num)]; rfl⟩

/-! ### The Dirichlet sum and its closed-form magnitude -/

/-- The geometric exponential sum `Σ_{n<N} e^(2πiθn)` governing spectral
leakage of the 2048-point transform. -/
noncomputable def expSum (θ : ℝ) : ℂ :=
  ∑ n ∈ Finset.range framesPerBuffer,
    Complex.exp (2 * (Real.pi : ℂ) * Complex.I * (θ : ℂ) * (n : ℂ))

theorem exp_I_sub_exp_neg (w : ℂ) :
    Complex.exp (w * Complex.I) - Complex.exp (-w * Complex.I) =
      2 * Complex.sin w * Complex.I := by
  have h := Complex.two_sin w
  linear_combination (-Complex.I) * h +
    (Complex.exp (w * Complex.I) - Complex.exp (-w * Complex.I)) * Complex.I_sq

theorem abs_exp_I_sub_one (x : ℝ) :
    Complex.abs (Complex.exp ((x : ℂ) * Complex.I) - 1) = 2 * |Real.sin (x / 2)| := by
  have h2 : ((x / 2 : ℝ) : ℂ) * Complex.I + -(((x / 2 : ℝ) : ℂ)) * Complex.I = 0 := by ring
  have hsplit : Complex.exp ((x : ℂ) * Complex.I) - 1 =
      Complex.exp (((x / 2 : ℝ) : ℂ) * Complex.I) *
        (Complex.exp (((x / 2 : ℝ) : ℂ) * Complex.I) -
          Complex.exp (-(((x / 2 : ℝ) : ℂ)) * Complex.I)) := by
    rw [mul_sub, ← Complex.exp_add, ← Complex.exp_add, h2, Complex.exp_zero]
    congr 2
    push_cast
    ring
  rw [hsplit, map_mul, Complex.abs_exp_ofReal_mul_I, one_mul]
  rw [exp_I_sub_exp_neg (((x / 2 : ℝ) : ℂ))]
  rw [map_mul, map_mul, Complex.abs_two, Complex.abs_I, mul_one]
  rw [← Complex.ofReal_sin, Complex.abs_ofReal]

theorem abs_expSum (θ : ℝ) (hθ : Real.sin (Real.pi * θ) ≠ 0) :
    Complex.abs (expSum θ) =
      |Real.sin ((framesPerBuffer : ℝ) * Real.pi * θ)| / |Real.sin (Real.pi * θ)| := by
  set z : ℂ := Complex.exp (((2 * Real.pi * θ : ℝ) : ℂ) * Complex.I) with hzdef
  have hzn : ∀ n : ℕ,
      Complex.exp (2 * (Real.pi : ℂ) * Complex.I * (θ : ℂ) * (n : ℂ)) = z ^ n := by
    intro n
    rw [hzdef, ← Complex.exp_nat_mul]
    congr 1
    push_cast
    ring
  have hz1 : z ≠ 1 := by
    intro hcon
    rw [hzdef] at hcon
    obtain ⟨j, hj⟩ := Complex.exp_eq_one_iff.mp hcon
    apply hθ
    have h2 : ((2 * Real.pi * θ : ℝ) : ℂ) * Complex.I =
        ((2 * Real.pi * (j : ℝ) : ℝ) : ℂ) * Complex.I := by
      rw [hj]
      push_cast
      ring
    have h3 : (2 * Real.pi * θ : ℝ) = (2 * Real.pi * (j : ℝ) : ℝ) := by
      have h4 := mul_right_cancel₀ Complex.I_ne_zero h2
      exact_mod_cast h4
    have hθj : θ = (j : ℝ) :=
      mul_left_cancel₀ (mul_ne_zero two_ne_zero Real.pi_ne_zero) h3
    rw [hθj, show Real.pi * (j : ℝ) = (j : ℝ) * Real.pi by ring]
    exact Real.sin_int_mul_pi j
  rw [expSum, Finset.sum_congr rfl fun n _ => hzn n, geom_sum_eq hz1]
  have hzN : z ^ framesPerBuffer =
      Complex.exp ((((framesPerBuffer : ℝ) * (2 * Real.pi * θ) : ℝ) : ℂ) * Complex.I) := by
    rw [hzdef, ← Complex.exp_nat_mul]
    congr 1
    push_cast
    ring
  rw [map_div₀, hzN]
  rw [abs_exp_I_sub_one, abs_exp_I_sub_one]
  rw [show ((framesPerBuffer : ℝ) * (2 * Real.pi * θ)) / 2 =
    (framesPerBuffer : ℝ) * Real.pi * θ by ring]
  rw [show (2 * Real.pi * θ) / 2 = Real.pi * θ by ring]
  rw [mul_div_mul_left _ _ (by norm_num : (2 : ℝ) ≠ 0)]

/-! ### Numeric bounds on sines of rational multiples of π -/

theorem sin_pi_mul_lb (q : ℝ) (h0 : 0 < q) (h1 : q ≤ 0.02) :
    3.138 * q ≤ Real.sin (Real.pi * q) := by
  have hπ1 := Real.pi_gt_d6
  have hπ2 := Real.pi_lt_d6
  have hπ0 := Real.pi_pos
  have hx0 : 0 < Real.pi * q := mul_pos hπ0 h0
  have hx1 : Real.pi * q ≤ 1 := by nlinarith
  have hcube := Real.sin_gt_sub_cube hx0 hx1
  have hq2 : q ^ 2 ≤ 0.0004 := by nlinarith
  have hπsq : Real.pi ^ 2 < 9.8697 := by nlinarith
  have hπ3 : Real.pi ^ 3 < 31.01 := by nlinarith
  have hq3 : q ^ 3 ≤ 0.0004 * q := by nlinarith
  have h5 : (Real.pi * q) ^ 3 ≤ 31.01 * (0.0004 * q) := by
    have hq3pos : (0 : ℝ) ≤ q ^ 3 := by positivity
    have h6 : Real.pi ^ 3 * q ^ 3 ≤ 31.01 * q ^ 3 := by nlinarith
    calc (Real.pi * q) ^ 3 = Real.pi ^ 3 * q ^ 3 := by ring
      _ ≤ 31.01 * q ^ 3 := h6
      _ ≤ 31.01 * (0.0004 * q) := by nlinarith
  have hπq : 3.141592 * q ≤ Real.pi * q := by nlinarith
  linarith

theorem sin_pi_mul_ub (q : ℝ) (h0 : 0 < q) :
    Real.sin (Real.pi * q) < 3.141593 * q := by
  have h := Real.sin_lt (mul_pos Real.pi_pos h0)
  have hπq : Real.pi * q < 3.141593 * q := by nlinarith [Real.pi_lt_d6]
  linarith

theorem sin_pi_mono {a b : ℝ} (h0 : 0 ≤ a) (hab : a ≤ b) (hb : b ≤ 1 / 2) :
    Real.sin (Real.pi * a) ≤ Real.sin (Real.pi * b) := by
  have hπ0 := Real.pi_pos
  have ha2 : Real.pi * a ≤ Real.pi / 2 := by nlinarith
  have hb2 : Real.pi * b ≤ Real.pi / 2 := by nlinarith
  apply Real.strictMonoOn_sin.monotoneOn
  · constructor
    · nlinarith
    · exact ha2
  · constructor
    · nlinarith
    · exact hb2
  · nlinarith

theorem abs_sin_pi_eq (θ : ℝ) (h : |θ| ≤ 1) :
    |Real.sin (Real.pi * θ)| = Real.sin (Real.pi * |θ|) := by
  rcases le_or_lt 0 θ with hθ | hθ
  · rw [abs_of_nonneg hθ]
    rw [abs_of_nonneg]
    apply Real.sin_nonneg_of_nonneg_of_le_pi
    · positivity
    · rw [abs_of_nonneg hθ] at h
      nlinarith [Real.pi_pos]
  · rw [abs_of_neg hθ]
    rw [show Real.pi * θ = -(Real.pi * -θ) by ring, Real.sin_neg, abs_neg]
    rw [abs_of_nonneg]
    apply Real.sin_nonneg_of_nonneg_of_le_pi
    · nlinarith [Real.pi_pos]
    · rw [abs_of_neg hθ] at h
      nlinarith [Real.pi_pos]

/-- Uniform upper bound on the Dirichlet sum away from integer frequencies. -/
theorem abs_expSum_le (θ c : ℝ) (h0c : 0 < c) (hc : c ≤ 0.02)
    (hcθ : c ≤ |θ|) (hθ : |θ| ≤ 1 / 2) :
    Complex.abs (expSum θ) ≤ 1 / (3.138 * c) := by
  have hsin_lb : 3.138 * c ≤ |Real.sin (Real.pi * θ)| := by
    rw [abs_sin_pi_eq θ (le_trans hθ (by norm_num))]
    calc 3.138 * c ≤ Real.sin (Real.pi * c) := sin_pi_mul_lb c h0c hc
      _ ≤ Real.sin (Real.pi * |θ|) := sin_pi_mono (le_of_lt h0c) hcθ hθ
  have hne : Real.sin (Real.pi * θ) ≠ 0 := by
    intro hz
    rw [hz, abs_zero] at hsin_lb
    nlinarith
  rw [abs_expSum θ hne]
  have hnum : |Real.sin ((framesPerBuffer : ℝ) * Real.pi * θ)| ≤ 1 :=
    abs_le.mpr ⟨Real.neg_one_le_sin _, Real.sin_le_one _⟩
  have hcpos : (0 : ℝ) < 3.138 * c := by nlinarith
  apply div_le_div₀ (by norm_num) hnum hcpos hsin_lb

/-! ### The 440 Hz pure-tone block -/

/-- Test input: 2048 samples of a 440 Hz sine at 44100 Hz. -/
noncomputable def sineBlock : List ℝ :=
  (List.range framesPerBuffer).map fun n : ℕ =>
    Real.sin (2 * Real.pi * 440 * (n : ℝ) / (sampleRate : ℝ))

/-- The complex samples `processAudio` builds from `sineBlock`. -/
noncomputable def sineSamples : List ℂ :=
  (List.range framesPerBuffer).map fun n : ℕ =>
    Complex.ofReal (Real.sin (2 * Real.pi * 440 * (n : ℝ) / (sampleRate : ℝ)))

theorem sineSamples_length : sineSamples.length = framesPerBuffer := by
  rw [sineSamples, List.length_map, List.length_range]

theorem samplesOf_sineBlock : samplesOf sineBlock = some sineSamples := by
  have hlen : sineBlock.length = framesPerBuffer := by
    rw [sineBlock, List.length_map, List.length_range]
  rw [samplesOf_eq _ (le_of_eq hlen), hlen, Nat.sub_self, List.replicate_zero,
    List.append_nil]
  rw [sineBlock, List.map_map]
  rfl

theorem sampleRate_cast_ne : (sampleRate : ℂ) ≠ 0 := by
  rw [sampleRate]; norm_num

theorem dft_sine_getD (k : ℕ) (hk : k < framesPerBuffer / 2) :
    (dft sineSamples).getD k 0 =
      (expSum (-(440 / (sampleRate : ℝ) + (k : ℝ) / (framesPerBuffer : ℝ))) -
        expSum (440 / (sampleRate : ℝ) - (k : ℝ) / (framesPerBuffer : ℝ))) *
        Complex.I / 2 := by
  have hkN : k < framesPerBuffer := by
    rw [framesPerBuffer] at hk ⊢
    omega
  rw [dft_getD _ k (by rw [sineSamples_length]; exact hkN), sineSamples_length]
  rw [expSum, expSum, ← Finset.sum_sub_distrib, Finset.sum_mul, Finset.sum_div]
  apply Finset.sum_congr rfl
  intro n hn
  have hn' := Finset.mem_range.mp hn
  rw [sineSamples, getD_map_range _ _ _ hn']
  rw [Complex.ofReal_sin, Complex.sin]
  have hN := framesPerBuffer_cast_ne
  have hS := sampleRate_cast_ne
  have hring : ∀ a b c : ℂ, (a - b) * Complex.I / 2 * c = (a * c - b * c) * Complex.I / 2 :=
    fun a b c => by ring
  rw [hring, ← Complex.exp_add, ← Complex.exp_add]
  congr 3
  · push_cast
    field_simp
    ring_nf
  · push_cast
    field_simp
    ring_nf

/-! ### Leakage bounds for the 440 Hz tone -/

theorem theta1_abs_bounds (k : ℕ) (hk : k < 102) (hne : k ≠ 20) :
    1249 / 4515840 ≤ |440 / (sampleRate : ℝ) - (k : ℝ) / (framesPerBuffer : ℝ)| ∧
    |440 / (sampleRate : ℝ) - (k : ℝ) / (framesPerBuffer : ℝ)| ≤ 1 / 2 := by
  rw [sampleRate, framesPerBuffer]
  have h1 : (440 : ℝ) / ((44100 : ℕ) : ℝ) - (k : ℝ) / ((2048 : ℕ) : ℝ) =
      (((45056 - 2205 * (k : ℤ)) : ℤ) : ℝ) / 4515840 := by
    push_cast
    field_simp
    ring
  rw [h1, abs_div, abs_of_pos (by norm_num : (0 : ℝ) < (4515840 : ℝ)), ← Int.cast_abs]
  have hm : (1249 : ℤ) ≤ |45056 - 2205 * (k : ℤ)| := by
    rcases le_or_lt (k : ℤ) 19 with h | h
    · rw [abs_of_nonneg (by omega)]
      omega
    · rw [abs_of_nonpos (by omega)]
      omega
  have hm2 : |45056 - 2205 * (k : ℤ)| ≤ 2257920 := by
    rcases le_or_lt (k : ℤ) 19 with h | h
    · rw [abs_of_nonneg (by omega)]
      omega
    · rw [abs_of_nonpos (by omega)]
      omega
  have hmr : (1249 : ℝ) ≤ ((|45056 - 2205 * (k : ℤ)| : ℤ) : ℝ) := by exact_mod_cast hm
  have hmr2 : ((|45056 - 2205 * (k : ℤ)| : ℤ) : ℝ) ≤ 2257920 := by exact_mod_cast hm2
  constructor
  · linarith
  · linarith

theorem theta2_abs_bounds (k : ℕ) (hk : k < 102) :
    22 / 2205 ≤ |(-(440 / (sampleRate : ℝ) + (k : ℝ) / (framesPerBuffer : ℝ)))| ∧
    |(-(440 / (sampleRate : ℝ) + (k : ℝ) / (framesPerBuffer : ℝ)))| ≤ 1 / 2 := by
  rw [abs_neg, sampleRate, framesPerBuffer]
  have hpos : (0 : ℝ) ≤ 440 / ((44100 : ℕ) : ℝ) + (k : ℝ) / ((2048 : ℕ) : ℝ) := by positivity
  rw [abs_of_nonneg hpos]
  have hk' : (k : ℝ) ≤ 101 := by exact_mod_cast (by omega : k ≤ 101)
  have hk0 : (0 : ℝ) ≤ (k : ℝ) := Nat.cast_nonneg k
  push_cast
  constructor
  · have h440 : (440 : ℝ) / 44100 = 22 / 2205 := by norm_num
    nlinarith
  · nlinarith

theorem abs_dft_sine_le (k : ℕ) (hk : k < 102) (hne : k ≠ 20) :
    Complex.abs ((dft sineSamples).getD k 0) ≤ 600 := by
  have hk2 : k < framesPerBuffer / 2 := by rw [framesPerBuffer]; omega
  rw [dft_sine_getD k hk2]
  have habs : Complex.abs
      ((expSum (-(440 / (sampleRate : ℝ) + (k : ℝ) / (framesPerBuffer : ℝ))) -
        expSum (440 / (sampleRate : ℝ) - (k : ℝ) / (framesPerBuffer : ℝ))) *
        Complex.I / 2) =
      Complex.abs
        (expSum (-(440 / (sampleRate : ℝ) + (k : ℝ) / (framesPerBuffer : ℝ))) -
          expSum (440 / (sampleRate : ℝ) - (k : ℝ) / (framesPerBuffer : ℝ))) / 2 := by
    rw [map_div₀, map_mul, Complex.abs_I, mul_one, Complex.abs_two]
  rw [habs]
  have htri : Complex.abs
      (expSum (-(440 / (sampleRate : ℝ) + (k : ℝ) / (framesPerBuffer : ℝ))) -
        expSum (440 / (sampleRate : ℝ) - (k : ℝ) / (framesPerBuffer : ℝ))) ≤
      Complex.abs (expSum (-(440 / (sampleRate : ℝ) + (k : ℝ) / (framesPerBuffer : ℝ)))) +
      Complex.abs (expSum (440 / (sampleRate : ℝ) - (k : ℝ) / (framesPerBuffer : ℝ))) := by
    rw [← Complex.norm_eq_abs, ← Complex.norm_eq_abs, ← Complex.norm_eq_abs]
    exact norm_sub_le _ _
  have hb1 := theta1_abs_bounds k hk hne
  have hb2 := theta2_abs_bounds k hk
  have ha : Complex.abs (expSum (-(440 / (sampleRate : ℝ) +
      (k : ℝ) / (framesPerBuffer : ℝ)))) ≤ 1 / (3.138 * (22 / 2205)) :=
    abs_expSum_le _ (22 / 2205) (by norm_num) (by norm_num) hb2.1 hb2.2
  have hbB : Complex.abs (expSum (440 / (sampleRate : ℝ) -
      (k : ℝ) / (framesPerBuffer : ℝ))) ≤ 1 / (3.138 * (1249 / 4515840)) :=
    abs_expSum_le _ (1249 / 4515840) (by norm_num) (by norm_num) hb1.1 hb1.2
  have hsum : 1 / (3.138 * (22 / 2205)) + 1 / (3.138 * (1249 / 4515840)) ≤ (1200 : ℝ) := by
    norm_num
  linarith

theorem sin_peak_lb : 0.978 ≤ Real.sin (Real.pi * (956 / 2205)) := by
  have h : Real.pi * (956 / 2205) = Real.pi / 2 - Real.pi * (293 / 4410) := by ring
  rw [h, Real.sin_pi_div_two_sub]
  have hb := @Real.one_sub_sq_div_two_le_cos (Real.pi * (293 / 4410))
  have hπ2 := Real.pi_lt_d6
  have hπ0 := Real.pi_pos
  have hx : Real.pi * (293 / 4410) < 0.20873 := by nlinarith
  have hx0 : 0 < Real.pi * (293 / 4410) := by positivity
  nlinarith

theorem abs_expSum_peak_lb :
    1470 ≤ Complex.abs (expSum (440 / (sampleRate : ℝ) -
      ((20 : ℕ) : ℝ) / (framesPerBuffer : ℝ))) := by
  have hθval : 440 / (sampleRate : ℝ) - ((20 : ℕ) : ℝ) / (framesPerBuffer : ℝ) =
      239 / 1128960 := by
    rw [sampleRate, framesPerBuffer]
    push_cast
    norm_num
  rw [hθval]
  have hθpos : (0 : ℝ) < 239 / 1128960 := by norm_num
  have hsinpos : 0 < Real.sin (Real.pi * (239 / 1128960)) := by
    apply Real.sin_pos_of_pos_of_lt_pi
    · positivity
    · nlinarith [Real.pi_pos]
  have hne := ne_of_gt hsinpos
  rw [abs_expSum _ hne]
  have hNθ : (framesPerBuffer : ℝ) * Real.pi * (239 / 1128960) =
      Real.pi * (956 / 2205) := by
    rw [framesPerBuffer]
    push_cast
    ring
  rw [hNθ]
  have hsin_nonneg : (0 : ℝ) ≤ Real.sin (Real.pi * (956 / 2205)) := by
    linarith [sin_peak_lb]
  have hnum : 0.978 ≤ |Real.sin (Real.pi * (956 / 2205))| := by
    rw [abs_of_nonneg hsin_nonneg]
    exact sin_peak_lb
  have hden_ub : |Real.sin (Real.pi * (239 / 1128960))| ≤ 3.141593 * (239 / 1128960) := by
    rw [abs_of_pos hsinpos]
    exact le_of_lt (sin_pi_mul_ub _ hθpos)
  have hdenpos : 0 < |Real.sin (Real.pi * (239 / 1128960))| := abs_pos.mpr hne
  calc (1470 : ℝ) ≤ 0.978 / (3.141593 * (239 / 1128960)) := by norm_num
    _ ≤ |Real.sin (Real.pi * (956 / 2205))| / |Real.sin (Real.pi * (239 / 1128960))| :=
        div_le_div₀ (abs_nonneg _) hnum hdenpos hden_ub

theorem abs_dft_sine_20_lb : 700 ≤ Complex.abs ((dft sineSamples).getD 20 0) := by
  rw [dft_sine_getD 20 (by rw [framesPerBuffer]; norm_num)]
  have habs : Complex.abs
      ((expSum (-(440 / (sampleRate : ℝ) + ((20 : ℕ) : ℝ) / (framesPerBuffer : ℝ))) -
        expSum (440 / (sampleRate : ℝ) - ((20 : ℕ) : ℝ) / (framesPerBuffer : ℝ))) *
        Complex.I / 2) =
      Complex.abs
        (expSum (-(440 / (sampleRate : ℝ) + ((20 : ℕ) : ℝ) / (framesPerBuffer : ℝ))) -
          expSum (440 / (sampleRate : ℝ) - ((20 : ℕ) : ℝ) / (framesPerBuffer : ℝ))) / 2 := by
    rw [map_div₀, map_mul, Complex.abs_I, mul_one, Complex.abs_two]
  rw [habs]
  have hlow : Complex.abs
      (expSum (440 / (sampleRate : ℝ) - ((20 : ℕ) : ℝ) / (framesPerBuffer : ℝ))) -
      Complex.abs
        (expSum (-(440 / (sampleRate : ℝ) + ((20 : ℕ) : ℝ) / (framesPerBuffer : ℝ)))) ≤
      Complex.abs
        (expSum (-(440 / (sampleRate : ℝ) + ((20 : ℕ) : ℝ) / (framesPerBuffer : ℝ))) -
          expSum (440 / (sampleRate : ℝ) - ((20 : ℕ) : ℝ) / (framesPerBuffer : ℝ))) := by
    rw [← Complex.norm_eq_abs, ← Complex.norm_eq_abs, ← Complex.norm_eq_abs, norm_sub_rev]
    exact norm_sub_norm_le _ _
  have h1 := abs_expSum_peak_lb
  have hb2 := theta2_abs_bounds 20 (by norm_num)
  have h2 : Complex.abs (expSum (-(440 / (sampleRate : ℝ) +
      ((20 : ℕ) : ℝ) / (framesPerBuffer : ℝ)))) ≤ 1 / (3.138 * (22 / 2205)) :=
    abs_expSum_le _ (22 / 2205) (by norm_num) (by norm_num) hb2.1 hb2.2
  have h3 : 1 / (3.138 * (22 / 2205)) ≤ (32 : ℝ) := by norm_num
  linarith

theorem peakScan_sine_eq :
    peakScan (magnitudesOf sineSamples) = ((magnitudesOf sineSamples).getD 20 0, 20) := by
  apply peakScan_eq_of_first_max
  · rw [magnitudesOf_length, highFreqLimit_eq, framesPerBuffer]
    norm_num
  · rw [magnitudesOf_getD _ 20 (by rw [framesPerBuffer]; norm_num)]
    linarith [abs_dft_sine_20_lb]
  · intro i hi
    rw [magnitudesOf_getD _ i (by rw [framesPerBuffer]; omega),
      magnitudesOf_getD _ 20 (by rw [framesPerBuffer]; norm_num)]
    have hle := abs_dft_sine_le i (by omega) (by omega)
    linarith [abs_dft_sine_20_lb]
  · intro i h20i hi
    have hi102 : i < 102 := by
      have h' := lt_of_lt_of_le hi (min_le_left _ _)
      rw [highFreqLimit_eq] at h'
      exact h'
    rw [magnitudesOf_getD _ i (by rw [framesPerBuffer]; omega),
      magnitudesOf_getD _ 20 (by rw [framesPerBuffer]; norm_num)]
    have hle := abs_dft_sine_le i hi102 (by omega)
    linarith [abs_dft_sine_20_lb]

/-! ### C2: pure-tone detection -/

/-- C2: on 2048 samples of a 440 Hz sine sampled at 44100 Hz, the dominant
scanned bin yields a raw frequency within one `freqResolution` of 440 Hz,
and the nearest-note lookup of that raw frequency is named "A4". -/
theorem C2_pure_tone :
    samplesOf sineBlock = some sineSamples ∧
    |((peakScan (magnitudesOf sineSamples)).2 : ℝ) * freqResolution - 440| <
      freqResolution ∧
    (findClosestNote (((peakScan (magnitudesOf sineSamples)).2 : ℝ) * freqResolution)).name
      = "A4" := by
  have hidx : (peakScan (magnitudesOf sineSamples)).2 = 20 := by
    rw [peakScan_sine_eq]
  refine ⟨samplesOf_sineBlock, ?_, ?_⟩
  · rw [hidx, freqResolution, sampleRate, framesPerBuffer]
    rw [abs_lt]
    constructor
    · push_cast
      norm_num
    · push_cast
      norm_num
  · rw [hidx]
    have hval : (((20 : ℕ) : ℝ)) * freqResolution = 430.6640625 := by
      rw [freqResolution, sampleRate, framesPerBuffer]
      push_cast
      norm_num
    rw [hval]
    rw [findClosest_A4_of_bounds _ (by norm_num) (by norm_num)]
    rw [pianoNotes_getD 33 (by norm_num)]
    rfl
